import Mathlib

/-!
Verification of the WordleBot candidate-filtering algorithm and game loop
(`WordleBot.py`), against its natural-language specification.

Words, guesses and feedback strings are modelled as `List Char`.  Python code
that can raise an exception is modelled with `Option` (`none` = exception):
list subscripts out of range and `list.index` on an absent element are the
possible failure points of `_is_word_still_possible`.
-/

namespace WordleBot

def WORD_LENGTH : Nat := 5

def MAX_ATTEMPTS : Nat := 6

def OPTIMAL_FIRST_GUESS : List Char := ['s', 'a', 'l', 'e', 't']

/-- Outcome of one of the three `for i in range(WORD_LENGTH)` passes:
either the pass raised (`crash`), executed a `return` (`ret`), or fell
through with the updated `word_chars` / `guess_chars` state (`cont`). -/
inductive Step (α : Type) where
  | crash : Step α
  | ret : Bool → Step α
  | cont : α → Step α
deriving DecidableEq, Repr

/-- Python `list.index`: index of the first occurrence, `none` modelling the
`ValueError` raised when the element is absent. -/
def pyIndex (xs : List (Option Char)) (x : Option Char) : Option Nat :=
  if x ∈ xs then some (xs.indexOf x) else none

/-- First pass of `_is_word_still_possible` (lines 104-110): for each `i`
with feedback `'G'`, require `word_chars[i] == guess_chars[i]` and null both
entries.  `i` is the current index, the second argument the remaining
iteration count. -/
def greenLoop (feedback : List Char) : Nat → Nat → List (Option Char) → List (Option Char) →
    Step (List (Option Char) × List (Option Char))
  | _, 0, wc, gc => .cont (wc, gc)
  | i, n + 1, wc, gc =>
    match feedback[i]? with
    | none => .crash
    | some f =>
      if f = 'G' then
        match wc[i]?, gc[i]? with
        | some w, some g =>
          if w ≠ g then .ret false
          else greenLoop feedback (i + 1) n (wc.set i none) (gc.set i none)
        | _, _ => .crash
      else greenLoop feedback (i + 1) n wc gc

/-- Second pass (lines 112-119): for each `i` with feedback `'Y'`, fail if
`word_chars[i] == guess_chars[i]`, fail if `guess_chars[i]` no longer occurs
in `word_chars`, otherwise null the first remaining occurrence. -/
def yellowLoop (feedback : List Char) : Nat → Nat → List (Option Char) → List (Option Char) →
    Step (List (Option Char) × List (Option Char))
  | _, 0, wc, gc => .cont (wc, gc)
  | i, n + 1, wc, gc =>
    match feedback[i]? with
    | none => .crash
    | some f =>
      if f = 'Y' then
        match wc[i]?, gc[i]? with
        | some w, some g =>
          if w = g then .ret false
          else if g ∈ wc then
            match pyIndex wc g with
            | none => .crash
            | some j => yellowLoop feedback (i + 1) n (wc.set j none) gc
          else .ret false
        | _, _ => .crash
      else yellowLoop feedback (i + 1) n wc gc

/-- Third pass (lines 121-125): for each `i` with feedback `'R'`, fail if
`guess_chars[i]` still occurs in `word_chars`. -/
def greyLoop (feedback : List Char) : Nat → Nat → List (Option Char) → List (Option Char) →
    Step (List (Option Char) × List (Option Char))
  | _, 0, wc, gc => .cont (wc, gc)
  | i, n + 1, wc, gc =>
    match feedback[i]? with
    | none => .crash
    | some f =>
      if f = 'R' then
        match gc[i]? with
        | some g => if g ∈ wc then .ret false else greyLoop feedback (i + 1) n wc gc
        | none => .crash
      else greyLoop feedback (i + 1) n wc gc

/-- Model of `WordleBot._is_word_still_possible` (lines 95-127).  `some b` is a normal
return of `b`; `none` models an uncaught exception. -/
def is_word_still_possible (word guess feedback : List Char) : Option Bool :=
  if word = guess then some false
  else
    match greenLoop feedback 0 WORD_LENGTH (word.map some) (guess.map some) with
    | .crash => none
    | .ret b => some b
    | .cont (wc, gc) =>
      match yellowLoop feedback 0 WORD_LENGTH wc gc with
      | .crash => none
      | .ret b => some b
      | .cont (wc2, gc2) =>
        match greyLoop feedback 0 WORD_LENGTH wc2 gc2 with
        | .crash => none
        | .ret b => some b
        | .cont _ => some true

/-- Model of `WordleBot.filter_possible_words` (lines 129-135), as a function of the
fields it reads: keeps the words for which `_is_word_still_possible` returns
`True`; an exception in the predicate propagates (`none`). -/
def filter_possible_words (possible : List (List Char)) (guess feedback : List Char) :
    Option (List (List Char)) :=
  match possible with
  | [] => some []
  | w :: rest =>
    match is_word_still_possible w guess feedback with
    | none => none
    | some b =>
      match filter_possible_words rest guess feedback with
      | none => none
      | some out => some (if b then w :: out else out)

/-! ### Reference Wordle scoring

Modelled from the spec: the reference scoring of a guess against a secret
word assigns greens first, then yellows left to right from the remaining
letter multiset, and grey everywhere else. -/

/-- Letters of the secret `word` not consumed by green matches. -/
def availInit (word guess : List Char) : List Char :=
  (word.zip guess).filterMap fun p => if p.1 = p.2 then none else some p.1

/-- Remaining letter multiset just before the yellow decision at position `k`
(positions `< k` have already been scored left to right). -/
def availAt (word guess : List Char) : Nat → List Char
  | 0 => availInit word guess
  | k + 1 =>
    let a := availAt word guess k
    match word[k]?, guess[k]? with
    | some w, some g => if w ≠ g ∧ g ∈ a then a.erase g else a
    | _, _ => a

/-- Reference feedback symbol at position `k`. -/
def scoreAt (word guess : List Char) (k : Nat) : Char :=
  match word[k]?, guess[k]? with
  | some w, some g =>
    if w = g then 'G'
    else if g ∈ availAt word guess k then 'Y'
    else 'R'
  | _, _ => 'R'

/-- Reference Wordle scoring of `guess` against the secret `word`. -/
def wordleScore (word guess : List Char) : List Char :=
  (List.range word.length).map (scoreAt word guess)

/-- The `word_chars` list as it stands after a successful Green pass:
green positions nulled, the rest intact. -/
def maskW (word guess : List Char) : List (Option Char) :=
  (word.zip guess).map fun p => if p.1 = p.2 then none else some p.1

/-- The `guess_chars` list as it stands after a successful Green pass. -/
def maskG (word guess : List Char) : List (Option Char) :=
  (word.zip guess).map fun p => if p.1 = p.2 then none else some p.2

/-! ### Game loop -/

inductive Status where
  | PLAYING : Status
  | WON : Status
  | LOST : Status
  | ERROR : Status
deriving DecidableEq, Repr

/-- The mutable fields of a `WordleBot` instance.  `last_feedback = none`
models Python `None` (the API response had no `"feedback"` key). -/
structure GameState where
  possible_words : List (List Char)
  current_guess : List Char
  attempt_number : Nat
  game_status : Status
  last_feedback : Option (List Char)
deriving DecidableEq, Repr

/-- One response of the guess-submission collaborator `WordleAPI.guess`:
a feedback string, a missing feedback field (Python `None`), or a raised
`WordleAPIError`. -/
inductive ApiResponse where
  | fb : List Char → ApiResponse
  | noFb : ApiResponse
  | err : ApiResponse
deriving DecidableEq, Repr

/-- Model of `WordleBot.__init__` (lines 72-78), with the loaded word list passed in. -/
def mkWordleBot (words : List (List Char)) : GameState :=
  { possible_words := words
    current_guess := OPTIMAL_FIRST_GUESS
    attempt_number := 0
    game_status := Status.PLAYING
    last_feedback := some [] }

/-- Model of `WordleBot.make_guess` (lines 138-157), with the API's behaviour for this
round supplied as `r`.  Note the API is only actually called when
`current_guess` is nonempty. -/
def make_guess (st : GameState) (r : ApiResponse) : GameState :=
  if st.current_guess = [] then { st with game_status := Status.LOST }
  else
    match r with
    | .err => { st with game_status := Status.ERROR }
    | .noFb => { st with last_feedback := none, game_status := Status.ERROR }
    | .fb s =>
      let st1 := { st with last_feedback := some s }
      if s = [] ∨ s.length ≠ WORD_LENGTH then { st1 with game_status := Status.ERROR }
      else if s = List.replicate WORD_LENGTH 'G' then { st1 with game_status := Status.WON }
      else st1

theorem make_guess_attempt_number (st : GameState) (r : ApiResponse) :
    (make_guess st r).attempt_number = st.attempt_number := by
  unfold make_guess
  cases r <;> dsimp only <;> (repeat' split) <;> rfl

/-- Model of `WordleBot.start_game` (lines 160-185): the guessing loop, driven by the
list of API responses for successive calls.  Returns the final state and the
unconsumed responses (so "no further guess is submitted" is visible), or
`none` if an exception escapes or the response oracle is exhausted while the
loop still wants to call the API. -/
def start_game (st : GameState) (rs : List ApiResponse) :
    Option (GameState × List ApiResponse) :=
  if _hgo : st.game_status = Status.PLAYING ∧ st.attempt_number < MAX_ATTEMPTS then
    if st.current_guess = [] then
      some ({ st with game_status := Status.LOST }, rs)
    else
      match rs with
      | [] => none
      | r :: rest =>
        let st1 := make_guess st r
        if st1.game_status ≠ Status.PLAYING then some (st1, rest)
        else
          match st1.last_feedback with
          | none => none
          | some fb =>
            match filter_possible_words st1.possible_words st1.current_guess fb with
            | none => none
            | some ws =>
              match ws with
              | [] => some ({ st1 with possible_words := [], game_status := Status.LOST }, rest)
              | w :: tail =>
                start_game
                  { st1 with
                    possible_words := w :: tail
                    current_guess := w
                    attempt_number := st1.attempt_number + 1 }
                  rest
  else some (st, rs)
termination_by MAX_ATTEMPTS - st.attempt_number
decreasing_by
  simp only [MAX_ATTEMPTS] at *
  rw [make_guess_attempt_number]
  omega

/-! ### Helper lemmas on lists of consumable characters -/

theorem mem_filterMap_id (c : Char) (l : List (Option Char)) :
    c ∈ l.filterMap id ↔ some c ∈ l := by
  simp [List.mem_filterMap]

/-- What the Yellow pass's consume step does: a successful `pyIndex` lookup
followed by nulling that entry removes exactly one occurrence of `c` from the
remaining letters, and only turns entries into `none`. -/
theorem consume_spec (c : Char) :
    ∀ l : List (Option Char), some c ∈ l →
      ∃ j, pyIndex l (some c) = some j ∧
        ((l.set j none).filterMap id : Multiset Char) =
          ((l.filterMap id : List Char) : Multiset Char).erase c ∧
        (∀ k : Nat, (l.set j none)[k]? = some none ∨ (l.set j none)[k]? = l[k]?) := by
  intro l
  induction l with
  | nil => intro h; exact absurd h (List.not_mem_nil _)
  | cons o t ih =>
    intro h
    by_cases ho : o = some c
    · subst ho
      refine ⟨0, ?_, ?_, ?_⟩
      · simp only [pyIndex, if_pos h, Option.some.injEq]
        rw [List.indexOf_cons, beq_self_eq_true, cond_true]
      · simp [List.filterMap_cons]
      · intro k
        cases k with
        | zero => exact Or.inl (by simp)
        | succ k => exact Or.inr rfl
    · have hmem : some c ∈ t := by
        rcases List.mem_cons.mp h with h1 | h1
        · exact absurd h1.symm ho
        · exact h1
      obtain ⟨j, hpy, hmul, hpt⟩ := ih hmem
      have hj : j = t.indexOf (some c) := by
        simp only [pyIndex, if_pos hmem, Option.some.injEq] at hpy
        exact hpy.symm
      refine ⟨j + 1, ?_, ?_, ?_⟩
      · have hbeq : (o == some c) = false := by
          simp only [beq_eq_false_iff_ne, ne_eq]
          exact ho
        simp only [pyIndex, if_pos h, if_pos hmem, Option.some.injEq] at hpy ⊢
        rw [List.indexOf_cons, hbeq, cond_false, ← hj]
      · show (((o :: t).set (j + 1) none).filterMap id : Multiset Char) = _
        rw [List.set_cons_succ]
        cases o with
        | none =>
          simpa [List.filterMap_cons] using hmul
        | some d =>
          have hd : d ≠ c := fun hdc => ho (by rw [hdc])
          simp only [List.filterMap_cons, id, ← Multiset.cons_coe]
          rw [hmul, Multiset.erase_cons_tail _ hd]
      · intro k
        cases k with
        | zero => exact Or.inr (by rw [List.set_cons_succ]; simp)
        | succ k =>
          rw [List.set_cons_succ]
          rcases hpt k with hk | hk
          · exact Or.inl (by simpa using hk)
          · exact Or.inr (by simpa using hk)

/-! ### Step equations for the three passes -/

theorem greenLoop_step_G (fb : List Char) (i n : Nat) (wc gc : List (Option Char))
    (a : Option Char) (hfi : fb[i]? = some 'G') (hwi : wc[i]? = some a)
    (hgi : gc[i]? = some a) :
    greenLoop fb i (n + 1) wc gc = greenLoop fb (i + 1) n (wc.set i none) (gc.set i none) := by
  simp only [greenLoop, hfi, hwi, hgi]
  simp

theorem greenLoop_step_G_ne (fb : List Char) (i n : Nat) (wc gc : List (Option Char))
    (a b : Option Char) (hfi : fb[i]? = some 'G') (hwi : wc[i]? = some a)
    (hgi : gc[i]? = some b) (hab : a ≠ b) :
    greenLoop fb i (n + 1) wc gc = .ret false := by
  simp only [greenLoop, hfi, hwi, hgi]
  simp [hab]

theorem greenLoop_step_skip (fb : List Char) (i n : Nat) (wc gc : List (Option Char))
    (f : Char) (hfi : fb[i]? = some f) (hf : f ≠ 'G') :
    greenLoop fb i (n + 1) wc gc = greenLoop fb (i + 1) n wc gc := by
  simp only [greenLoop, hfi]
  simp [hf]

theorem yellowLoop_step_eq (fb : List Char) (i n : Nat) (wc gc : List (Option Char))
    (a : Option Char) (hfi : fb[i]? = some 'Y') (hwi : wc[i]? = some a)
    (hgi : gc[i]? = some a) :
    yellowLoop fb i (n + 1) wc gc = .ret false := by
  simp only [yellowLoop, hfi, hwi, hgi]
  simp

theorem yellowLoop_step_consume (fb : List Char) (i n j : Nat) (wc gc : List (Option Char))
    (a b : Option Char) (hfi : fb[i]? = some 'Y') (hwi : wc[i]? = some a)
    (hgi : gc[i]? = some b) (hab : a ≠ b) (hmem : b ∈ wc) (hpy : pyIndex wc b = some j) :
    yellowLoop fb i (n + 1) wc gc = yellowLoop fb (i + 1) n (wc.set j none) gc := by
  simp only [yellowLoop, hfi, hwi, hgi, hpy]
  simp [hab, hmem]

theorem yellowLoop_step_notmem (fb : List Char) (i n : Nat) (wc gc : List (Option Char))
    (a b : Option Char) (hfi : fb[i]? = some 'Y') (hwi : wc[i]? = some a)
    (hgi : gc[i]? = some b) (hab : a ≠ b) (hmem : b ∉ wc) :
    yellowLoop fb i (n + 1) wc gc = .ret false := by
  simp only [yellowLoop, hfi, hwi, hgi]
  simp [hab, hmem]

theorem yellowLoop_step_skip (fb : List Char) (i n : Nat) (wc gc : List (Option Char))
    (f : Char) (hfi : fb[i]? = some f) (hf : f ≠ 'Y') :
    yellowLoop fb i (n + 1) wc gc = yellowLoop fb (i + 1) n wc gc := by
  simp only [yellowLoop, hfi]
  simp [hf]

theorem greyLoop_step_mem (fb : List Char) (i n : Nat) (wc gc : List (Option Char))
    (b : Option Char) (hfi : fb[i]? = some 'R') (hgi : gc[i]? = some b) (hmem : b ∈ wc) :
    greyLoop fb i (n + 1) wc gc = .ret false := by
  simp only [greyLoop, hfi, hgi]
  simp [hmem]

theorem greyLoop_step_notmem (fb : List Char) (i n : Nat) (wc gc : List (Option Char))
    (b : Option Char) (hfi : fb[i]? = some 'R') (hgi : gc[i]? = some b) (hmem : b ∉ wc) :
    greyLoop fb i (n + 1) wc gc = greyLoop fb (i + 1) n wc gc := by
  simp only [greyLoop, hfi, hgi]
  simp [hmem]

theorem greyLoop_step_skip (fb : List Char) (i n : Nat) (wc gc : List (Option Char))
    (f : Char) (hfi : fb[i]? = some f) (hf : f ≠ 'R') :
    greyLoop fb i (n + 1) wc gc = greyLoop fb (i + 1) n wc gc := by
  simp only [greyLoop, hfi]
  simp [hf]

theorem set_green_compose (fb : List Char) (i k : Nat) (l : List (Option Char))
    (hl : l.length = 5) (hi : i < 5) (hfi : fb[i]? = some 'G') :
    (if i + 1 ≤ k ∧ fb[k]? = some 'G' then some none else (l.set i none)[k]?) =
      (if i ≤ k ∧ fb[k]? = some 'G' then some none else l[k]?) := by
  by_cases hki : k = i
  · subst hki
    rw [if_neg fun h => absurd h.1 (by omega), List.getElem?_set_self (by omega),
      if_pos ⟨le_refl k, hfi⟩]
  · rw [List.getElem?_set_ne fun h => hki h.symm]
    exact if_congr ⟨fun h => ⟨by omega, h.2⟩, fun h => ⟨by omega, h.2⟩⟩ rfl rfl

theorem skip_if_compose (fb : List Char) (i k : Nat) (c e : Char)
    (hfi : fb[i]? = some c) (hc : c ≠ e) :
    (i + 1 ≤ k ∧ fb[k]? = some e) ↔ (i ≤ k ∧ fb[k]? = some e) := by
  constructor
  · rintro ⟨h1, h2⟩; exact ⟨by omega, h2⟩
  · rintro ⟨h1, h2⟩
    refine ⟨?_, h2⟩
    rcases Nat.lt_or_ge i k with h | h
    · omega
    · exfalso
      have hki : k = i := by omega
      rw [hki, hfi] at h2
      exact hc (Option.some.inj h2)

/-- Dichotomy for the Green pass: either it returns `False`, witnessed by a
Green position at which the two character lists differ, or it completes and
nulls exactly the Green positions from `i` on. -/
theorem greenLoop_cases (fb : List Char) (hfb : fb.length = 5) :
    ∀ (n i : Nat) (wc gc : List (Option Char)), i + n = 5 →
      wc.length = 5 → gc.length = 5 →
      (greenLoop fb i n wc gc = .ret false ∧
        ∃ k, i ≤ k ∧ k < 5 ∧ fb[k]? = some 'G' ∧ wc[k]? ≠ gc[k]?) ∨
      (∃ wc' gc', greenLoop fb i n wc gc = .cont (wc', gc') ∧
        wc'.length = 5 ∧ gc'.length = 5 ∧
        (∀ k, k < 5 →
          wc'[k]? = if i ≤ k ∧ fb[k]? = some 'G' then some none else wc[k]?) ∧
        (∀ k, k < 5 →
          gc'[k]? = if i ≤ k ∧ fb[k]? = some 'G' then some none else gc[k]?)) := by
  intro n
  induction n with
  | zero =>
    intro i wc gc hin hwc hgc
    refine Or.inr ⟨wc, gc, rfl, hwc, hgc, ?_, ?_⟩ <;>
      · intro k hk
        rw [if_neg]
        rintro ⟨hik, -⟩
        omega
  | succ n ih =>
    intro i wc gc hin hwc hgc
    have hi5 : i < 5 := by omega
    have hfi : fb[i]? = some fb[i] := List.getElem?_eq_getElem (by omega)
    have hwi : wc[i]? = some wc[i] := List.getElem?_eq_getElem (by omega)
    have hgi : gc[i]? = some gc[i] := List.getElem?_eq_getElem (by omega)
    by_cases hG : fb[i] = 'G'
    · rw [hG] at hfi
      by_cases heq : wc[i] = gc[i]
      · rw [heq] at hwi
        have hstep := greenLoop_step_G fb i n wc gc gc[i] hfi hwi hgi
        rcases ih (i + 1) (wc.set i none) (gc.set i none) (by omega)
            (by simp [hwc]) (by simp [hgc]) with
          ⟨hret, k, hik, hk5, hfk, hne⟩ | ⟨wc', gc', hcont, hl1, hl2, hcw, hcg⟩
        · refine Or.inl ⟨hstep.trans hret, k, by omega, hk5, hfk, ?_⟩
          rwa [List.getElem?_set_ne (by omega : i ≠ k),
            List.getElem?_set_ne (by omega : i ≠ k)] at hne
        · refine Or.inr ⟨wc', gc', hstep.trans hcont, hl1, hl2, ?_, ?_⟩
          · intro k hk
            rw [hcw k hk]
            exact set_green_compose fb i k wc hwc hi5 hfi
          · intro k hk
            rw [hcg k hk]
            exact set_green_compose fb i k gc hgc hi5 hfi
      · have hstep := greenLoop_step_G_ne fb i n wc gc wc[i] gc[i] hfi hwi hgi heq
        refine Or.inl ⟨hstep, i, le_refl i, hi5, hfi, ?_⟩
        rw [hwi, hgi]
        exact fun h => heq (Option.some.inj h)
    · have hstep := greenLoop_step_skip fb i n wc gc fb[i] hfi hG
      rcases ih (i + 1) wc gc (by omega) hwc hgc with
        ⟨hret, k, hik, hk5, hfk, hne⟩ | ⟨wc', gc', hcont, hl1, hl2, hcw, hcg⟩
      · exact Or.inl ⟨hstep.trans hret, k, by omega, hk5, hfk, hne⟩
      · refine Or.inr ⟨wc', gc', hstep.trans hcont, hl1, hl2, ?_, ?_⟩
        · intro k hk
          rw [hcw k hk, if_congr (skip_if_compose fb i k fb[i] 'G' hfi hG) rfl rfl]
        · intro k hk
          rw [hcg k hk, if_congr (skip_if_compose fb i k fb[i] 'G' hfi hG) rfl rfl]

/-- The Yellow pass never raises on length-5 inputs: the membership test
guards the `list.index` call, so `pyIndex`'s error branch is unreachable. -/
theorem yellowLoop_total (fb : List Char) (hfb : fb.length = 5) :
    ∀ (n i : Nat) (wc gc : List (Option Char)), i + n = 5 →
      wc.length = 5 → gc.length = 5 →
      yellowLoop fb i n wc gc = .ret false ∨
      ∃ wc', yellowLoop fb i n wc gc = .cont (wc', gc) ∧ wc'.length = 5 := by
  intro n
  induction n with
  | zero => intro i wc gc hin hwc hgc; exact Or.inr ⟨wc, rfl, hwc⟩
  | succ n ih =>
    intro i wc gc hin hwc hgc
    have hi5 : i < 5 := by omega
    have hfi : fb[i]? = some fb[i] := List.getElem?_eq_getElem (by omega)
    have hwi : wc[i]? = some wc[i] := List.getElem?_eq_getElem (by omega)
    have hgi : gc[i]? = some gc[i] := List.getElem?_eq_getElem (by omega)
    by_cases hY : fb[i] = 'Y'
    · rw [hY] at hfi
      by_cases heq : wc[i] = gc[i]
      · rw [heq] at hwi
        exact Or.inl (yellowLoop_step_eq fb i n wc gc gc[i] hfi hwi hgi)
      · by_cases hmem : gc[i] ∈ wc
        · have hpy : pyIndex wc gc[i] = some (wc.indexOf gc[i]) := by
            simp [pyIndex, hmem]
          have hstep := yellowLoop_step_consume fb i n (wc.indexOf gc[i]) wc gc
            wc[i] gc[i] hfi hwi hgi heq hmem hpy
          rcases ih (i + 1) (wc.set (wc.indexOf gc[i]) none) gc (by omega)
              (by simp [hwc]) hgc with hret | ⟨wc', hcont, hl⟩
          · exact Or.inl (hstep.trans hret)
          · exact Or.inr ⟨wc', hstep.trans hcont, hl⟩
        · exact Or.inl (yellowLoop_step_notmem fb i n wc gc wc[i] gc[i] hfi hwi hgi heq hmem)
    · have hstep := yellowLoop_step_skip fb i n wc gc fb[i] hfi hY
      rcases ih (i + 1) wc gc (by omega) hwc hgc with hret | ⟨wc', hcont, hl⟩
      · exact Or.inl (hstep.trans hret)
      · exact Or.inr ⟨wc', hstep.trans hcont, hl⟩

/-- The Grey pass never raises on length-5 inputs, and never modifies the
state. -/
theorem greyLoop_total (fb : List Char) (hfb : fb.length = 5) :
    ∀ (n i : Nat) (wc gc : List (Option Char)), i + n = 5 → gc.length = 5 →
      greyLoop fb i n wc gc = .ret false ∨ greyLoop fb i n wc gc = .cont (wc, gc) := by
  intro n
  induction n with
  | zero => intro i wc gc hin hgc; exact Or.inr rfl
  | succ n ih =>
    intro i wc gc hin hgc
    have hi5 : i < 5 := by omega
    have hfi : fb[i]? = some fb[i] := List.getElem?_eq_getElem (by omega)
    have hgi : gc[i]? = some gc[i] := List.getElem?_eq_getElem (by omega)
    by_cases hR : fb[i] = 'R'
    · rw [hR] at hfi
      by_cases hmem : gc[i] ∈ wc
      · exact Or.inl (greyLoop_step_mem fb i n wc gc gc[i] hfi hgi hmem)
      · have hstep := greyLoop_step_notmem fb i n wc gc gc[i] hfi hgi hmem
        rcases ih (i + 1) wc gc (by omega) hgc with hret | hcont
        · exact Or.inl (hstep.trans hret)
        · exact Or.inr (hstep.trans hcont)
    · have hstep := greyLoop_step_skip fb i n wc gc fb[i] hfi hR
      rcases ih (i + 1) wc gc (by omega) hgc with hret | hcont
      · exact Or.inl (hstep.trans hret)
      · exact Or.inr (hstep.trans hcont)

/-- C10: on inputs of length `WORD_LENGTH` the function is total — in
particular, whenever the Yellow pass reaches the consume step, the preceding
membership check guarantees the `list.index` lookup succeeds, so no
exception is ever raised. -/
theorem C10_no_exception (word guess feedback : List Char) (hw : word.length = WORD_LENGTH)
    (hg : guess.length = WORD_LENGTH) (hf : feedback.length = WORD_LENGTH) :
    ∃ b, is_word_still_possible word guess feedback = some b := by
  rw [WORD_LENGTH] at hw hg hf
  unfold is_word_still_possible WORD_LENGTH
  by_cases hwg : word = guess
  · exact ⟨false, by rw [if_pos hwg]⟩
  · rw [if_neg hwg]
    rcases greenLoop_cases feedback hf 5 0 (word.map some) (guess.map some) (by omega)
        (by simp [hw]) (by simp [hg]) with ⟨hret, -⟩ | ⟨wc', gc', hcont, hl1, hl2, -, -⟩
    · exact ⟨false, by rw [hret]⟩
    · rw [hcont]
      dsimp only
      rcases yellowLoop_total feedback hf 5 0 wc' gc' (by omega) hl1 hl2 with
        hret | ⟨wc2, hcont2, hl3⟩
      · exact ⟨false, by rw [hret]⟩
      · rw [hcont2]
        dsimp only
        rcases greyLoop_total feedback hf 5 0 wc2 gc' (by omega) hl2 with hret | hcont3
        · exact ⟨false, by rw [hret]⟩
        · exact ⟨true, by rw [hcont3]⟩

theorem C10_witness :
    ∃ b, is_word_still_possible ['c', 'r', 'a', 'n', 'e'] ['s', 'a', 'l', 'e', 't']
      ['R', 'Y', 'R', 'Y', 'R'] = some b :=
  C10_no_exception ['c', 'r', 'a', 'n', 'e'] ['s', 'a', 'l', 'e', 't']
    ['R', 'Y', 'R', 'Y', 'R'] (by decide) (by decide) (by decide)

/-- If no position in `[i', target)` carries Yellow feedback and the lists
still agree at `target` (a Yellow position), the Yellow pass returns
`False` when started at `i'`. -/
theorem yellowLoop_hits_eq (fb : List Char) (hfb : fb.length = 5) (target : Nat)
    (ht : target < 5) (hft : fb[target]? = some 'Y') :
    ∀ (n i : Nat) (wc gc : List (Option Char)), i + n = 5 →
      wc.length = 5 → gc.length = 5 → i ≤ target →
      (∀ j, i ≤ j → j < target → fb[j]? ≠ some 'Y') →
      wc[target]? = gc[target]? →
      yellowLoop fb i n wc gc = .ret false := by
  intro n
  induction n with
  | zero => intro i wc gc hin hwc hgc hit _ _; omega
  | succ n ih =>
    intro i wc gc hin hwc hgc hit hnoY heqt
    have hi5 : i < 5 := by omega
    have hwi : wc[i]? = some wc[i] := List.getElem?_eq_getElem (by omega)
    have hgi : gc[i]? = some gc[i] := List.getElem?_eq_getElem (by omega)
    by_cases hie : i = target
    · subst hie
      rw [hwi, hgi] at heqt
      have heq : wc[i] = gc[i] := Option.some.inj heqt
      rw [heq] at hwi
      exact yellowLoop_step_eq fb i n wc gc gc[i] hft hwi hgi
    · have hfi : fb[i]? = some fb[i] := List.getElem?_eq_getElem (by omega)
      have hY : fb[i] ≠ 'Y' := by
        intro hY
        exact hnoY i (le_refl i) (by omega) (by rw [hfi, hY])
      rw [yellowLoop_step_skip fb i n wc gc fb[i] hfi hY]
      exact ih (i + 1) wc gc (by omega) hwc hgc (by omega)
        (fun j hj hjt => hnoY j (by omega) hjt) heqt

/-- C2 amended: if position `i` has Yellow feedback, `word[i] == guess[i]`,
and no position before `i` has Yellow feedback, then
`_is_word_still_possible` returns `False`. -/
theorem C2_amended (word guess feedback : List Char) (hw : word.length = WORD_LENGTH)
    (hg : guess.length = WORD_LENGTH) (hf : feedback.length = WORD_LENGTH)
    (i : Nat) (hi : i < WORD_LENGTH) (hfi : feedback[i]? = some 'Y')
    (heq : word[i]? = guess[i]?)
    (hnoY : ∀ j, j < i → feedback[j]? ≠ some 'Y') :
    is_word_still_possible word guess feedback = some false := by
  rw [WORD_LENGTH] at hw hg hf hi
  unfold is_word_still_possible WORD_LENGTH
  by_cases hwg : word = guess
  · rw [if_pos hwg]
  · rw [if_neg hwg]
    rcases greenLoop_cases feedback hf 5 0 (word.map some) (guess.map some) (by omega)
        (by simp [hw]) (by simp [hg]) with ⟨hret, -⟩ | ⟨wc', gc', hcont, hl1, hl2, hcw, hcg⟩
    · rw [hret]
    · rw [hcont]
      dsimp only
      have hGY : ¬(0 ≤ i ∧ feedback[i]? = some 'G') := by
        rintro ⟨-, hG⟩
        rw [hfi] at hG
        exact absurd (Option.some.inj hG) (by decide)
      have hwt : wc'[i]? = (word.map some)[i]? := by rw [hcw i hi, if_neg hGY]
      have hgt : gc'[i]? = (guess.map some)[i]? := by rw [hcg i hi, if_neg hGY]
      have heqt : wc'[i]? = gc'[i]? := by
        rw [hwt, hgt, List.getElem?_map, List.getElem?_map, heq]
      rw [yellowLoop_hits_eq feedback hf i hi hfi 5 0 wc' gc' (by omega) hl1 hl2
        (by omega) (fun j _ hj => hnoY j hj) heqt]

theorem C2_amended_witness :
    is_word_still_possible ['a', 'b', 'b', 'b', 'b'] ['a', 'c', 'c', 'c', 'c']
      ['Y', 'R', 'R', 'R', 'R'] = some false :=
  C2_amended ['a', 'b', 'b', 'b', 'b'] ['a', 'c', 'c', 'c', 'c'] ['Y', 'R', 'R', 'R', 'R']
    (by decide) (by decide) (by decide) 0 (by decide) (by decide) (by decide)
    fun j hj => absurd hj (Nat.not_lt_zero j)

/-! ### Facts about the reference scoring -/

theorem wordleScore_length (word guess : List Char) :
    (wordleScore word guess).length = word.length := by
  simp [wordleScore]

theorem wordleScore_getElem? (word guess : List Char) (k : Nat) (hk : k < word.length) :
    (wordleScore word guess)[k]? = some (scoreAt word guess k) := by
  unfold wordleScore
  rw [List.getElem?_map, List.getElem?_range hk]
  rfl

theorem scoreAt_eq (word guess : List Char) (k : Nat) (a b : Char)
    (ha : word[k]? = some a) (hb : guess[k]? = some b) :
    scoreAt word guess k =
      if a = b then 'G' else if b ∈ availAt word guess k then 'Y' else 'R' := by
  unfold scoreAt
  rw [ha, hb]

theorem scoreAt_ne_G (word guess : List Char) (k : Nat) (a b : Char)
    (ha : word[k]? = some a) (hb : guess[k]? = some b) (hab : a ≠ b) :
    scoreAt word guess k ≠ 'G' := by
  rw [scoreAt_eq word guess k a b ha hb, if_neg hab]
  by_cases hbm : b ∈ availAt word guess k
  · rw [if_pos hbm]; decide
  · rw [if_neg hbm]; decide

theorem availAt_succ (word guess : List Char) (k : Nat) (a b : Char)
    (ha : word[k]? = some a) (hb : guess[k]? = some b) :
    availAt word guess (k + 1) =
      if a ≠ b ∧ b ∈ availAt word guess k then (availAt word guess k).erase b
      else availAt word guess k := by
  conv_lhs => rw [availAt]
  rw [ha, hb]

theorem availAt_succ_mem (word guess : List Char) (c : Char) (j : Nat)
    (h : c ∈ availAt word guess (j + 1)) : c ∈ availAt word guess j := by
  revert h
  conv_lhs => rw [availAt]
  cases hwj : word[j]? with
  | none => exact fun h => h
  | some a =>
    cases hgj : guess[j]? with
    | none => exact fun h => h
    | some b =>
      dsimp only
      split
      · exact fun h => List.mem_of_mem_erase h
      · exact fun h => h

theorem availAt_mem_le (word guess : List Char) (c : Char) (k : Nat) :
    ∀ j, k ≤ j → c ∈ availAt word guess j → c ∈ availAt word guess k := by
  intro j
  induction j with
  | zero =>
    intro hkj h
    have hk : k = 0 := by omega
    rwa [hk]
  | succ j ih =>
    intro hkj h
    rcases Nat.lt_or_ge k (j + 1) with hk | hk
    · exact ih (by omega) (availAt_succ_mem word guess c j h)
    · have hk1 : k = j + 1 := by omega
      rwa [hk1]

theorem length_maskW (word guess : List Char) :
    (maskW word guess).length = min word.length guess.length := by
  simp [maskW]

theorem length_maskG (word guess : List Char) :
    (maskG word guess).length = min word.length guess.length := by
  simp [maskG]

theorem maskW_getElem? (word guess : List Char) (k : Nat) (a b : Char)
    (ha : word[k]? = some a) (hb : guess[k]? = some b) :
    (maskW word guess)[k]? = some (if a = b then none else some a) := by
  unfold maskW
  rw [List.getElem?_map, List.getElem?_zip_eq_some.mpr (⟨ha, hb⟩ :
    word[k]? = some (a, b).1 ∧ guess[k]? = some (a, b).2)]
  rfl

theorem maskG_getElem? (word guess : List Char) (k : Nat) (a b : Char)
    (ha : word[k]? = some a) (hb : guess[k]? = some b) :
    (maskG word guess)[k]? = some (if a = b then none else some b) := by
  unfold maskG
  rw [List.getElem?_map, List.getElem?_zip_eq_some.mpr (⟨ha, hb⟩ :
    word[k]? = some (a, b).1 ∧ guess[k]? = some (a, b).2)]
  rfl

theorem filterMap_maskW (word guess : List Char) :
    (maskW word guess).filterMap id = availInit word guess := by
  unfold maskW availInit
  rw [List.filterMap_map]
  rfl

/-- Running the Yellow pass against the reference feedback
`wordleScore word guess` never fails: the remaining-letter multiset of
`word_chars` tracks the scorer's availability multiset exactly. -/
theorem yellowLoop_score (word guess : List Char) (hw : word.length = 5)
    (hg : guess.length = 5) :
    ∀ (n i : Nat) (wc : List (Option Char)), i + n = 5 → wc.length = 5 →
      (∀ k, k < 5 → wc[k]? = some none ∨ wc[k]? = (maskW word guess)[k]?) →
      ((wc.filterMap id : List Char) : Multiset Char) = ↑(availAt word guess i) →
      ∃ wc', yellowLoop (wordleScore word guess) i n wc (maskG word guess) =
          .cont (wc', maskG word guess) ∧
        wc'.length = 5 ∧
        ((wc'.filterMap id : List Char) : Multiset Char) = ↑(availAt word guess 5) := by
  intro n
  induction n with
  | zero =>
    intro i wc hin hwc hpt hmul
    obtain rfl : i = 5 := by omega
    exact ⟨wc, rfl, hwc, hmul⟩
  | succ n ih =>
    intro i wc hin hwc hpt hmul
    have hi5 : i < 5 := by omega
    obtain ⟨a, ha⟩ : ∃ a, word[i]? = some a := ⟨_, List.getElem?_eq_getElem (by omega)⟩
    obtain ⟨b, hb⟩ : ∃ b, guess[i]? = some b := ⟨_, List.getElem?_eq_getElem (by omega)⟩
    obtain ⟨v, hv⟩ : ∃ v, wc[i]? = some v := ⟨_, List.getElem?_eq_getElem (by omega)⟩
    have hfi : (wordleScore word guess)[i]? = some (scoreAt word guess i) :=
      wordleScore_getElem? word guess i (by omega)
    have hsc := scoreAt_eq word guess i a b ha hb
    have hav := availAt_succ word guess i a b ha hb
    by_cases hab : a = b
    · rw [hsc, if_pos hab] at hfi
      have hstep := yellowLoop_step_skip (wordleScore word guess) i n wc (maskG word guess)
        'G' hfi (by decide)
      have hsame : availAt word guess (i + 1) = availAt word guess i := by
        rw [hav, if_neg fun hcon => hcon.1 hab]
      obtain ⟨wc', hcont, hl, hm⟩ := ih (i + 1) wc (by omega) hwc hpt
        (by rw [hsame]; exact hmul)
      exact ⟨wc', hstep.trans hcont, hl, hm⟩
    · by_cases hbm : b ∈ availAt word guess i
      · rw [hsc, if_neg hab, if_pos hbm] at hfi
        have hgci : (maskG word guess)[i]? = some (some b) := by
          rw [maskG_getElem? word guess i a b ha hb, if_neg hab]
        have hvb : v ≠ some b := by
          rcases hpt i (by omega) with hnone | horig
          · rw [hv] at hnone
            rw [Option.some.inj hnone]
            exact fun hcon => Option.noConfusion hcon
          · rw [hv, maskW_getElem? word guess i a b ha hb, if_neg hab] at horig
            rw [Option.some.inj horig]
            exact fun hcon => hab (Option.some.inj hcon)
        have hmemb : some b ∈ wc := by
          apply (mem_filterMap_id b wc).mp
          apply Multiset.mem_coe.mp
          rw [hmul]
          exact Multiset.mem_coe.mpr hbm
        obtain ⟨j, hpyj, hjmul, hjpt⟩ := consume_spec b wc hmemb
        have hstep := yellowLoop_step_consume (wordleScore word guess) i n j wc
          (maskG word guess) v (some b) hfi hv hgci hvb hmemb hpyj
        have hmul' : (((wc.set j none).filterMap id : List Char) : Multiset Char) =
            ↑(availAt word guess (i + 1)) := by
          rw [hjmul, hmul, hav, if_pos ⟨hab, hbm⟩]
          exact Multiset.coe_erase _ _
        have hpt' : ∀ k, k < 5 → (wc.set j none)[k]? = some none ∨
            (wc.set j none)[k]? = (maskW word guess)[k]? := by
          intro k hk
          rcases hjpt k with hnone | hsame'
          · exact Or.inl hnone
          · rw [hsame']
            exact hpt k hk
        obtain ⟨wc', hcont, hl, hm⟩ := ih (i + 1) (wc.set j none) (by omega)
          (by simp [hwc]) hpt' hmul'
        exact ⟨wc', hstep.trans hcont, hl, hm⟩
      · rw [hsc, if_neg hab, if_neg hbm] at hfi
        have hstep := yellowLoop_step_skip (wordleScore word guess) i n wc (maskG word guess)
          'R' hfi (by decide)
        have hsame : availAt word guess (i + 1) = availAt word guess i := by
          rw [hav, if_neg fun hcon => hbm hcon.2]
        obtain ⟨wc', hcont, hl, hm⟩ := ih (i + 1) wc (by omega) hwc hpt
          (by rw [hsame]; exact hmul)
        exact ⟨wc', hstep.trans hcont, hl, hm⟩

/-- Running the Grey pass against the reference feedback never fails: a Grey
position's letter is absent from the scorer's availability multiset at that
position, hence absent from the final remaining letters of `word_chars`. -/
theorem greyLoop_score (word guess : List Char) (hw : word.length = 5)
    (hg : guess.length = 5) :
    ∀ (n i : Nat) (wcf : List (Option Char)), i + n = 5 →
      ((wcf.filterMap id : List Char) : Multiset Char) = ↑(availAt word guess 5) →
      greyLoop (wordleScore word guess) i n wcf (maskG word guess) =
        .cont (wcf, maskG word guess) := by
  intro n
  induction n with
  | zero => intro i wcf hin hmul; rfl
  | succ n ih =>
    intro i wcf hin hmul
    have hi5 : i < 5 := by omega
    obtain ⟨a, ha⟩ : ∃ a, word[i]? = some a := ⟨_, List.getElem?_eq_getElem (by omega)⟩
    obtain ⟨b, hb⟩ : ∃ b, guess[i]? = some b := ⟨_, List.getElem?_eq_getElem (by omega)⟩
    have hfi : (wordleScore word guess)[i]? = some (scoreAt word guess i) :=
      wordleScore_getElem? word guess i (by omega)
    have hsc := scoreAt_eq word guess i a b ha hb
    by_cases hab : a = b
    · rw [hsc, if_pos hab] at hfi
      rw [greyLoop_step_skip (wordleScore word guess) i n wcf (maskG word guess) 'G' hfi
        (by decide)]
      exact ih (i + 1) wcf (by omega) hmul
    · by_cases hbm : b ∈ availAt word guess i
      · rw [hsc, if_neg hab, if_pos hbm] at hfi
        rw [greyLoop_step_skip (wordleScore word guess) i n wcf (maskG word guess) 'Y' hfi
          (by decide)]
        exact ih (i + 1) wcf (by omega) hmul
      · rw [hsc, if_neg hab, if_neg hbm] at hfi
        have hgci : (maskG word guess)[i]? = some (some b) := by
          rw [maskG_getElem? word guess i a b ha hb, if_neg hab]
        have hnm : some b ∉ wcf := by
          intro hmem
          apply hbm
          apply availAt_mem_le word guess b i 5 (by omega)
          apply Multiset.mem_coe.mp
          rw [← hmul]
          exact Multiset.mem_coe.mpr ((mem_filterMap_id b wcf).mpr hmem)
        rw [greyLoop_step_notmem (wordleScore word guess) i n wcf (maskG word guess)
          (some b) hfi hgci hnm]
        exact ih (i + 1) wcf (by omega) hmul

/-- After a successful Green pass on the reference feedback, the two
character lists are exactly the green masks of `word` and `guess`. -/
theorem green_masks (word guess : List Char) (hw : word.length = 5) (hg : guess.length = 5)
    (wc' gc' : List (Option Char)) (hl1 : wc'.length = 5) (hl2 : gc'.length = 5)
    (hcw : ∀ k, k < 5 → wc'[k]? =
      if 0 ≤ k ∧ (wordleScore word guess)[k]? = some 'G' then some none
      else (word.map some)[k]?)
    (hcg : ∀ k, k < 5 → gc'[k]? =
      if 0 ≤ k ∧ (wordleScore word guess)[k]? = some 'G' then some none
      else (guess.map some)[k]?) :
    wc' = maskW word guess ∧ gc' = maskG word guess := by
  constructor
  · apply List.ext_getElem?
    intro k
    by_cases hk : k < 5
    · obtain ⟨a, ha⟩ : ∃ a, word[k]? = some a := ⟨_, List.getElem?_eq_getElem (by omega)⟩
      obtain ⟨b, hb⟩ : ∃ b, guess[k]? = some b := ⟨_, List.getElem?_eq_getElem (by omega)⟩
      have hfk : (wordleScore word guess)[k]? = some (scoreAt word guess k) :=
        wordleScore_getElem? word guess k (by omega)
      rw [hcw k hk, maskW_getElem? word guess k a b ha hb]
      by_cases hab : a = b
      · rw [if_pos ⟨Nat.zero_le k, by
          rw [hfk, scoreAt_eq word guess k a b ha hb, if_pos hab]⟩, if_pos hab]
      · rw [if_neg fun hcon =>
            scoreAt_ne_G word guess k a b ha hb hab
              (Option.some.inj (hfk ▸ hcon.2)),
          if_neg hab, List.getElem?_map, ha]
        rfl
    · rw [List.getElem?_eq_none (by omega), List.getElem?_eq_none
        (by rw [length_maskW, hw, hg]; omega)]
  · apply List.ext_getElem?
    intro k
    by_cases hk : k < 5
    · obtain ⟨a, ha⟩ : ∃ a, word[k]? = some a := ⟨_, List.getElem?_eq_getElem (by omega)⟩
      obtain ⟨b, hb⟩ : ∃ b, guess[k]? = some b := ⟨_, List.getElem?_eq_getElem (by omega)⟩
      have hfk : (wordleScore word guess)[k]? = some (scoreAt word guess k) :=
        wordleScore_getElem? word guess k (by omega)
      rw [hcg k hk, maskG_getElem? word guess k a b ha hb]
      by_cases hab : a = b
      · rw [if_pos ⟨Nat.zero_le k, by
          rw [hfk, scoreAt_eq word guess k a b ha hb, if_pos hab]⟩, if_pos hab]
      · rw [if_neg fun hcon =>
            scoreAt_ne_G word guess k a b ha hb hab
              (Option.some.inj (hfk ▸ hcon.2)),
          if_neg hab, List.getElem?_map, hb]
        rfl
    · rw [List.getElem?_eq_none (by omega), List.getElem?_eq_none
        (by rw [length_maskG, hw, hg]; omega)]

/-- C1 amended: if the reference scoring of `guess` against secret `word`
produces exactly `feedback` (and `word ≠ guess`, lengths 5), then
`_is_word_still_possible` returns `True`.  (This is the sound direction of
the claimed equivalence; `C1_counterexample` refutes the converse.) -/
theorem C1_amended (word guess feedback : List Char) (hw : word.length = WORD_LENGTH)
    (hg : guess.length = WORD_LENGTH) (hwg : word ≠ guess)
    (hfb : feedback = wordleScore word guess) :
    is_word_still_possible word guess feedback = some true := by
  subst hfb
  rw [WORD_LENGTH] at hw hg
  unfold is_word_still_possible WORD_LENGTH
  rw [if_neg hwg]
  have hfblen : (wordleScore word guess).length = 5 := by rw [wordleScore_length, hw]
  rcases greenLoop_cases (wordleScore word guess) hfblen 5 0 (word.map some)
      (guess.map some) (by omega) (by simp [hw]) (by simp [hg]) with
    ⟨hret, k, h0k, hk5, hfk, hne⟩ | ⟨wc', gc', hcont, hl1, hl2, hcw, hcg⟩
  · exfalso
    obtain ⟨a, ha⟩ : ∃ a, word[k]? = some a := ⟨_, List.getElem?_eq_getElem (by omega)⟩
    obtain ⟨b, hb⟩ : ∃ b, guess[k]? = some b := ⟨_, List.getElem?_eq_getElem (by omega)⟩
    have hfk' : (wordleScore word guess)[k]? = some (scoreAt word guess k) :=
      wordleScore_getElem? word guess k (by omega)
    by_cases hab : a = b
    · apply hne
      rw [List.getElem?_map, List.getElem?_map, ha, hb, hab]
    · exact scoreAt_ne_G word guess k a b ha hb hab (Option.some.inj (hfk' ▸ hfk))
  · rw [hcont]
    dsimp only
    obtain ⟨hmw, hmg⟩ := green_masks word guess hw hg wc' gc' hl1 hl2 hcw hcg
    subst hmw
    subst hmg
    obtain ⟨wc2, hy, hl3, hmul2⟩ := yellowLoop_score word guess hw hg 5 0
      (maskW word guess) (by omega) (by rw [length_maskW, hw, hg]; exact min_self 5)
      (fun k hk => Or.inr rfl)
      (by rw [filterMap_maskW]; rfl)
    rw [hy]
    dsimp only
    rw [greyLoop_score word guess hw hg 5 0 wc2 (by omega) hmul2]

theorem C1_amended_witness :
    is_word_still_possible ['c', 'r', 'a', 'n', 'e'] ['s', 'a', 'l', 'e', 't']
      (wordleScore ['c', 'r', 'a', 'n', 'e'] ['s', 'a', 'l', 'e', 't']) = some true :=
  C1_amended ['c', 'r', 'a', 'n', 'e'] ['s', 'a', 'l', 'e', 't']
    (wordleScore ['c', 'r', 'a', 'n', 'e'] ['s', 'a', 'l', 'e', 't'])
    (by decide) (by decide) (by decide) rfl

/-! ### Basic facts about the filter -/

/-- C3: for every guess and every feedback string,
`_is_word_still_possible(guess, guess, feedback)` returns `False`: the
just-played word is always excluded from the remaining candidates. -/
theorem C3_self_exclusion (guess feedback : List Char) :
    is_word_still_possible guess guess feedback = some false := by
  simp [is_word_still_possible]

/-- C8: a letter (`'l'`) can receive Green feedback at one position
(position 0) and Grey at another (position 1) of the same guess, and
`_is_word_still_possible` still accepts the word: Grey for a letter elsewhere
does not rule out a word once all of that letter's occurrences in the word
are consumed by the Green/Yellow passes. -/
theorem C8_green_and_grey_same_letter :
    (['l', 'z', 'a', 'b', 'c'] : List Char).length = WORD_LENGTH ∧
    (['l', 'l', 'a', 'b', 'c'] : List Char).length = WORD_LENGTH ∧
    (['G', 'R', 'G', 'G', 'G'] : List Char).length = WORD_LENGTH ∧
    (['l', 'l', 'a', 'b', 'c'] : List Char)[0]? = (['l', 'l', 'a', 'b', 'c'] : List Char)[1]? ∧
    (['G', 'R', 'G', 'G', 'G'] : List Char)[0]? = some 'G' ∧
    (['G', 'R', 'G', 'G', 'G'] : List Char)[1]? = some 'R' ∧
    is_word_still_possible ['l', 'z', 'a', 'b', 'c'] ['l', 'l', 'a', 'b', 'c']
      ['G', 'R', 'G', 'G', 'G'] = some true := by
  decide

/-- C1 counterexample: for word `"baacc"`, guess `"aadcc"` and feedback
`"YYRGG"` (all of length 5, symbols in {G, Y, R}, word ≠ guess),
`_is_word_still_possible` returns `True`, yet the reference Wordle scoring of
the guess against the word is `"YGRGG"`, not `"YYRGG"`.  So the function is
not equivalent to "the reference scoring produces exactly this feedback". -/
theorem C1_counterexample :
    (['b', 'a', 'a', 'c', 'c'] : List Char).length = WORD_LENGTH ∧
    (['a', 'a', 'd', 'c', 'c'] : List Char).length = WORD_LENGTH ∧
    (['Y', 'Y', 'R', 'G', 'G'] : List Char).length = WORD_LENGTH ∧
    (∀ c ∈ (['Y', 'Y', 'R', 'G', 'G'] : List Char), c = 'G' ∨ c = 'Y' ∨ c = 'R') ∧
    (['b', 'a', 'a', 'c', 'c'] : List Char) ≠ ['a', 'a', 'd', 'c', 'c'] ∧
    is_word_still_possible ['b', 'a', 'a', 'c', 'c'] ['a', 'a', 'd', 'c', 'c']
      ['Y', 'Y', 'R', 'G', 'G'] = some true ∧
    wordleScore ['b', 'a', 'a', 'c', 'c'] ['a', 'a', 'd', 'c', 'c'] =
      ['Y', 'G', 'R', 'G', 'G'] ∧
    wordleScore ['b', 'a', 'a', 'c', 'c'] ['a', 'a', 'd', 'c', 'c'] ≠
      ['Y', 'Y', 'R', 'G', 'G'] := by
  decide

/-- C2 counterexample: word `"baacc"`, guess `"aadcc"`, feedback `"YYRGG"`:
position 1 has Yellow feedback and `word[1] == guess[1] == 'a'`, yet
`_is_word_still_possible` returns `True` — the Yellow pass at position 0
already consumed `word[1]`, so the contradiction check compares `None` with
`'a'` and does not fire. -/
theorem C2_counterexample :
    (['b', 'a', 'a', 'c', 'c'] : List Char).length = WORD_LENGTH ∧
    (['a', 'a', 'd', 'c', 'c'] : List Char).length = WORD_LENGTH ∧
    (['Y', 'Y', 'R', 'G', 'G'] : List Char).length = WORD_LENGTH ∧
    (['b', 'a', 'a', 'c', 'c'] : List Char) ≠ ['a', 'a', 'd', 'c', 'c'] ∧
    (['Y', 'Y', 'R', 'G', 'G'] : List Char)[1]? = some 'Y' ∧
    (['b', 'a', 'a', 'c', 'c'] : List Char)[1]? = (['a', 'a', 'd', 'c', 'c'] : List Char)[1]? ∧
    is_word_still_possible ['b', 'a', 'a', 'c', 'c'] ['a', 'a', 'd', 'c', 'c']
      ['Y', 'Y', 'R', 'G', 'G'] ≠ some false := by
  decide

/-! ### Filtering: shrinkage and idempotence -/

theorem filter_possible_words_sublist (guess feedback : List Char) :
    ∀ (possible out : List (List Char)),
      filter_possible_words possible guess feedback = some out → out.Sublist possible := by
  intro possible
  induction possible with
  | nil =>
    intro out h
    simp only [filter_possible_words, Option.some.injEq] at h
    exact h ▸ List.Sublist.refl []
  | cons w rest ih =>
    intro out h
    unfold filter_possible_words at h
    cases hw : is_word_still_possible w guess feedback with
    | none => rw [hw] at h; exact absurd h (by simp)
    | some b =>
      rw [hw] at h
      cases hr : filter_possible_words rest guess feedback with
      | none => rw [hr] at h; exact absurd h (by simp)
      | some out' =>
        rw [hr] at h
        simp only [Option.some.injEq] at h
        subst h
        cases b with
        | true => exact (ih out' hr).cons₂ w
        | false => exact (ih out' hr).cons w

/-- C4: the list produced by `filter_possible_words` is a subsequence of the
input list, so in particular its length never exceeds the input's length:
the candidate set never grows across a round. -/
theorem C4_filter_shrinks (possible : List (List Char)) (guess feedback : List Char)
    (out : List (List Char)) (h : filter_possible_words possible guess feedback = some out) :
    out.Sublist possible ∧ out.length ≤ possible.length := by
  have hs := filter_possible_words_sublist guess feedback possible out h
  exact ⟨hs, hs.length_le⟩

theorem C4_witness :
    ([['c', 'r', 'a', 'n', 'e']] : List (List Char)).Sublist
        [['s', 'a', 'l', 'e', 't'], ['c', 'r', 'a', 'n', 'e']] ∧
    ([['c', 'r', 'a', 'n', 'e']] : List (List Char)).length ≤
      ([['s', 'a', 'l', 'e', 't'], ['c', 'r', 'a', 'n', 'e']] : List (List Char)).length :=
  C4_filter_shrinks [['s', 'a', 'l', 'e', 't'], ['c', 'r', 'a', 'n', 'e']]
    ['s', 'a', 'l', 'e', 't'] ['R', 'Y', 'R', 'Y', 'R'] [['c', 'r', 'a', 'n', 'e']] (by decide)

theorem filter_possible_words_mem (guess feedback : List Char) :
    ∀ (possible out : List (List Char)),
      filter_possible_words possible guess feedback = some out →
      ∀ w ∈ out, is_word_still_possible w guess feedback = some true := by
  intro possible
  induction possible with
  | nil =>
    intro out h
    simp only [filter_possible_words, Option.some.injEq] at h
    subst h; intro w hw; exact absurd hw (List.not_mem_nil w)
  | cons w rest ih =>
    intro out h
    unfold filter_possible_words at h
    cases hw : is_word_still_possible w guess feedback with
    | none => rw [hw] at h; exact absurd h (by simp)
    | some b =>
      rw [hw] at h
      cases hr : filter_possible_words rest guess feedback with
      | none => rw [hr] at h; exact absurd h (by simp)
      | some out' =>
        rw [hr] at h
        simp only [Option.some.injEq] at h
        subst h
        intro v hv
        cases b with
        | true =>
          rcases List.mem_cons.mp hv with hv | hv
          · subst hv; exact hw
          · exact ih out' hr v hv
        | false => exact ih out' hr v hv

theorem filter_possible_words_of_all_true (guess feedback : List Char) :
    ∀ (l : List (List Char)),
      (∀ w ∈ l, is_word_still_possible w guess feedback = some true) →
      filter_possible_words l guess feedback = some l := by
  intro l
  induction l with
  | nil => intro _; rfl
  | cons w rest ih =>
    intro hall
    unfold filter_possible_words
    rw [hall w (List.mem_cons_self w rest), ih fun v hv => hall v (List.mem_cons_of_mem w hv)]
    simp

/-- C5: filtering is idempotent — applying `filter_possible_words`' filter a
second time with the same guess/feedback pair returns the output of the
first application unchanged. -/
theorem C5_filter_idempotent (possible : List (List Char)) (guess feedback : List Char)
    (out : List (List Char)) (h : filter_possible_words possible guess feedback = some out) :
    filter_possible_words out guess feedback = some out :=
  filter_possible_words_of_all_true guess feedback out
    (filter_possible_words_mem guess feedback possible out h)

theorem C5_witness :
    filter_possible_words [['c', 'r', 'a', 'n', 'e']] ['s', 'a', 'l', 'e', 't']
      ['R', 'Y', 'R', 'Y', 'R'] = some [['c', 'r', 'a', 'n', 'e']] :=
  C5_filter_idempotent [['s', 'a', 'l', 'e', 't'], ['c', 'r', 'a', 'n', 'e']]
    ['s', 'a', 'l', 'e', 't'] ['R', 'Y', 'R', 'Y', 'R'] [['c', 'r', 'a', 'n', 'e']] (by decide)

/-! ### Game loop properties -/

/-- C6: if the feedback for the current guess is absent (`None`) or its
length differs from `WORD_LENGTH`, the game status becomes `ERROR`, the loop
halts with that state, and none of the remaining API responses is consumed:
no further guess is submitted. -/
theorem C6_malformed_feedback (st : GameState) (r : ApiResponse) (rest : List ApiResponse)
    (hplay : st.game_status = Status.PLAYING) (hatt : st.attempt_number < MAX_ATTEMPTS)
    (hguess : st.current_guess ≠ [])
    (hmal : r = ApiResponse.noFb ∨
      ∃ s, r = ApiResponse.fb s ∧ (s = [] ∨ s.length ≠ WORD_LENGTH)) :
    (make_guess st r).game_status = Status.ERROR ∧
    start_game st (r :: rest) = some (make_guess st r, rest) := by
  have herr : (make_guess st r).game_status = Status.ERROR := by
    rcases hmal with rfl | ⟨s, rfl, hs⟩
    · unfold make_guess
      rw [if_neg hguess]
    · unfold make_guess
      rw [if_neg hguess]
      dsimp only
      rw [if_pos hs]
  refine ⟨herr, ?_⟩
  unfold start_game
  rw [dif_pos ⟨hplay, hatt⟩, if_neg hguess]
  dsimp only
  rw [if_pos (show (make_guess st r).game_status ≠ Status.PLAYING by rw [herr]; decide)]

theorem C6_witness :
    (make_guess (mkWordleBot [['c', 'r', 'a', 'n', 'e']])
      (ApiResponse.fb ['G', 'Y', 'R', 'R'])).game_status = Status.ERROR ∧
    start_game (mkWordleBot [['c', 'r', 'a', 'n', 'e']])
        [ApiResponse.fb ['G', 'Y', 'R', 'R']] =
      some (make_guess (mkWordleBot [['c', 'r', 'a', 'n', 'e']])
        (ApiResponse.fb ['G', 'Y', 'R', 'R']), []) :=
  C6_malformed_feedback (mkWordleBot [['c', 'r', 'a', 'n', 'e']])
    (ApiResponse.fb ['G', 'Y', 'R', 'R']) [] (by decide) (by decide) (by decide)
    (Or.inr ⟨['G', 'Y', 'R', 'R'], rfl, Or.inr (by decide)⟩)

/-- C7: when the feedback is well-formed (length `WORD_LENGTH`) and not
all-Green but filtering empties the candidate list, the game ends in `LOST`
— not `ERROR` — and the loop terminates. -/
theorem C7_exhaustion_is_lost (st : GameState) (s : List Char) (rest : List ApiResponse)
    (hplay : st.game_status = Status.PLAYING) (hatt : st.attempt_number < MAX_ATTEMPTS)
    (hguess : st.current_guess ≠ [])
    (hlen : s.length = WORD_LENGTH) (hnw : s ≠ List.replicate WORD_LENGTH 'G')
    (hfilter : filter_possible_words st.possible_words st.current_guess s = some []) :
    start_game st (ApiResponse.fb s :: rest) =
      some ({ st with
        possible_words := []
        game_status := Status.LOST
        last_feedback := some s }, rest) := by
  have hne : ¬(s = [] ∨ s.length ≠ WORD_LENGTH) := by
    rintro (rfl | hbad)
    · rw [WORD_LENGTH] at hlen
      exact absurd hlen (by decide)
    · exact hbad hlen
  have hmk : make_guess st (ApiResponse.fb s) = { st with last_feedback := some s } := by
    unfold make_guess
    rw [if_neg hguess]
    dsimp only
    rw [if_neg hne, if_neg hnw]
  unfold start_game
  rw [dif_pos ⟨hplay, hatt⟩, if_neg hguess]
  dsimp only
  rw [hmk]
  rw [if_neg (show ¬({ st with last_feedback := some s } : GameState).game_status ≠
    Status.PLAYING by simp [hplay])]
  dsimp only
  rw [hfilter]

theorem C7_witness :
    start_game (mkWordleBot [['s', 'a', 'l', 'e', 't']])
        [ApiResponse.fb ['R', 'R', 'R', 'R', 'R']] =
      some ({ (mkWordleBot [['s', 'a', 'l', 'e', 't']]) with
        possible_words := []
        game_status := Status.LOST
        last_feedback := some ['R', 'R', 'R', 'R', 'R'] }, []) :=
  C7_exhaustion_is_lost (mkWordleBot [['s', 'a', 'l', 'e', 't']])
    ['R', 'R', 'R', 'R', 'R'] [] (by decide) (by decide) (by decide) (by decide)
    (by decide) (by decide)

/-- The attempt-counter invariant carried through the loop, by induction on
the remaining attempt budget. -/
theorem start_game_attempt_le :
    ∀ (m : Nat) (st : GameState) (rs : List ApiResponse) (st' : GameState)
      (rs' : List ApiResponse),
      MAX_ATTEMPTS - st.attempt_number ≤ m →
      st.attempt_number ≤ MAX_ATTEMPTS →
      start_game st rs = some (st', rs') →
      st'.attempt_number ≤ MAX_ATTEMPTS := by
  intro m
  induction m with
  | zero =>
    intro st rs st' rs' hm hle h
    rw [MAX_ATTEMPTS] at hm hle ⊢
    unfold start_game at h
    rw [dif_neg (by rintro ⟨-, hlt⟩; rw [MAX_ATTEMPTS] at hlt; omega)] at h
    obtain ⟨rfl, rfl⟩ : st = st' ∧ rs = rs' := by
      have h2 := Option.some.inj h
      exact ⟨congrArg Prod.fst h2, congrArg Prod.snd h2⟩
    exact hle
  | succ m ih =>
    intro st rs st' rs' hm hle h
    by_cases hguard : st.game_status = Status.PLAYING ∧ st.attempt_number < MAX_ATTEMPTS
    · unfold start_game at h
      rw [dif_pos hguard] at h
      by_cases hcg : st.current_guess = []
      · rw [if_pos hcg] at h
        have h2 := Option.some.inj h
        have hst : ({ st with game_status := Status.LOST } : GameState) = st' :=
          congrArg Prod.fst h2
        rw [← hst]
        exact hle
      · rw [if_neg hcg] at h
        cases rs with
        | nil => exact absurd h (by simp)
        | cons r rest =>
          dsimp only at h
          by_cases hst1 : (make_guess st r).game_status ≠ Status.PLAYING
          · rw [if_pos hst1] at h
            have h2 := Option.some.inj h
            have hst : make_guess st r = st' := congrArg Prod.fst h2
            rw [← hst, make_guess_attempt_number]
            exact hle
          · rw [if_neg hst1] at h
            cases hlf : (make_guess st r).last_feedback with
            | none => rw [hlf] at h; exact absurd h (by simp)
            | some fb =>
              rw [hlf] at h
              dsimp only at h
              cases hfil : filter_possible_words (make_guess st r).possible_words
                  (make_guess st r).current_guess fb with
              | none => rw [hfil] at h; exact absurd h (by simp)
              | some ws =>
                rw [hfil] at h
                dsimp only at h
                cases ws with
                | nil =>
                  obtain ⟨hfst, hsnd⟩ := Prod.mk.inj (Option.some.inj h)
                  rw [← hfst]
                  show (make_guess st r).attempt_number ≤ MAX_ATTEMPTS
                  rw [make_guess_attempt_number]
                  exact hle
                | cons w tail =>
                  refine ih _ rest st' rs' ?_ ?_ h
                  · show MAX_ATTEMPTS - ((make_guess st r).attempt_number + 1) ≤ m
                    rw [make_guess_attempt_number]
                    omega
                  · show (make_guess st r).attempt_number + 1 ≤ MAX_ATTEMPTS
                    rw [make_guess_attempt_number]
                    omega
    · unfold start_game at h
      rw [dif_neg hguard] at h
      have h2 := Option.some.inj h
      have hst : st = st' := congrArg Prod.fst h2
      rw [← hst]
      exact hle

/-- C9: the attempt counter starts at 0 and, in every state the game loop
can produce from a state within bounds, stays between 0 and `MAX_ATTEMPTS`
(the lower bound is structural: the counter is a natural number). -/
theorem C9_attempt_counter_bounded :
    (∀ words, (mkWordleBot words).attempt_number = 0) ∧
    (∀ (st : GameState) (rs : List ApiResponse) (st' : GameState) (rs' : List ApiResponse),
      st.attempt_number ≤ MAX_ATTEMPTS → start_game st rs = some (st', rs') →
      st'.attempt_number ≤ MAX_ATTEMPTS) := by
  refine ⟨fun words => rfl, fun st rs st' rs' hle h => ?_⟩
  exact start_game_attempt_le (MAX_ATTEMPTS - st.attempt_number) st rs st' rs'
    (le_refl _) hle h

theorem C9_witness :
    (mkWordleBot [['c', 'r', 'a', 'n', 'e']]).attempt_number = 0 ∧
    ({ possible_words := [['c', 'r', 'a', 'n', 'e']],
       current_guess := ['s', 'a', 'l', 'e', 't'], attempt_number := 0,
       game_status := Status.WON, last_feedback := some [] } : GameState).attempt_number ≤
      MAX_ATTEMPTS :=
  ⟨C9_attempt_counter_bounded.1 [['c', 'r', 'a', 'n', 'e']],
    C9_attempt_counter_bounded.2
      { possible_words := [['c', 'r', 'a', 'n', 'e']],
        current_guess := ['s', 'a', 'l', 'e', 't'], attempt_number := 0,
        game_status := Status.WON, last_feedback := some [] } []
      { possible_words := [['c', 'r', 'a', 'n', 'e']],
        current_guess := ['s', 'a', 'l', 'e', 't'], attempt_number := 0,
        game_status := Status.WON, last_feedback := some [] } []
      (by decide) (by unfold start_game; decide)⟩

end WordleBot
